import Mathlib

/-!
Verification of the meal-identification preprocessing notebook
(1.02-vr-ggs-data-preprocessing): the segment labeler `create_meal_labels`
and the column/row handling of `preprocess_data`.

The labeler is a single-pass scan over the rows of the data frame.  Its
state is the pair (meal_counter, active_meals); the python list
`active_meals` grows at its end, so we keep the top of the stack at the
HEAD of the Lean list (python `active_meals[-1]` is the head here, and
`active_meals.pop()` is `tail`).
-/

namespace BG

/-- Meal-start predicate of create_meal_labels: the msg_type of the row
equals the string ANNOUNCE_MEAL. -/
def mealStartP (msg : String) : Bool := msg == "ANNOUNCE_MEAL"

/-- Meal-end predicate of create_meal_labels: the msg_type of the row equals
the string MEAL_END. -/
def mealEndP (msg : String) : Bool := msg == "MEAL_END"

/-- Step 1 of the loop body of create_meal_labels: on a meal-start row,
append meal_counter to active_meals and increment meal_counter.  The
state is (meal_counter, active_meals), top of stack at the head. -/
def mealPush (s : Nat × List Nat) (isStart : Bool) : Nat × List Nat :=
  if isStart then (s.1 + 1, s.1 :: s.2) else s

/-- Step 2 of the loop body: labels[i] becomes active_meals[-1] when the
stack is non-empty; otherwise labels[i] keeps the initial value 0 put
there by np.zeros. -/
def mealLabel (stack : List Nat) : Nat := stack.headD 0

/-- Step 3 of the loop body: on a meal-end row with a non-empty stack,
active_meals.pop(). -/
def mealPop (s : Nat × List Nat) (isEnd : Bool) : Nat × List Nat :=
  if isEnd && !s.2.isEmpty then (s.1, s.2.tail) else s

/-- One iteration of the loop of create_meal_labels on the row whose
(meal_start, meal_end) flags are ev: returns the new state and the label
written for this row. -/
def mealStep (s : Nat × List Nat) (ev : Bool × Bool) : (Nat × List Nat) × Nat :=
  ((mealPop (mealPush s ev.1) ev.2), mealLabel (mealPush s ev.1).2)

/-- The whole loop of create_meal_labels, started from state s, emitting
one label per row. -/
def mealLabelsAux (s : Nat × List Nat) : List (Bool × Bool) → List Nat
  | [] => []
  | ev :: rest => (mealStep s ev).2 :: mealLabelsAux (mealStep s ev).1 rest

/-- create_meal_labels on the per-row (meal_start, meal_end) flag
columns: meal_counter starts at 1 and active_meals starts empty. -/
def create_meal_labels_core (evs : List (Bool × Bool)) : List Nat :=
  mealLabelsAux (1, []) evs

/-- create_meal_labels on the msg_type column: the flag columns are the
two equality tests of lines 120-121. -/
def create_meal_labels (msgs : List String) : List Nat :=
  create_meal_labels_core (msgs.map (fun m => (mealStartP m, mealEndP m)))

/-- The state of the scan after consuming evs, started from s. -/
def mealState (s : Nat × List Nat) (evs : List (Bool × Bool)) : Nat × List Nat :=
  evs.foldl (fun t ev => (mealStep t ev).1) s

/-- The state of the scan of create_meal_labels just before row i. -/
def mealStateAt (evs : List (Bool × Bool)) (i : Nat) : Nat × List Nat :=
  mealState (1, []) (evs.take i)

/-- Scan invariant: the counter is at least 1, the stack is strictly
decreasing from its head (so strictly increasing from bottom to top of
the python list), and every stacked identifier is positive and below the
counter. -/
def MealInv (s : Nat × List Nat) : Prop :=
  1 ≤ s.1 ∧ List.Chain' (fun a b => a > b) s.2 ∧ ∀ x ∈ s.2, 0 < x ∧ x < s.1

/-- Concrete one-row input: a single meal-start row (used to instantiate
the general theorems). -/
def exOneStart : List (Bool × Bool) := [(true, false)]

/-- Concrete msg_type column of the nested example: start, start, end,
end. -/
def exFour : List String := ["ANNOUNCE_MEAL", "ANNOUNCE_MEAL", "MEAL_END", "MEAL_END"]

/-- Row of preprocess_data as seen by the sorting step: the parsed
timestamp and the original position of the row, standing for the rest of
the row payload. -/
structure EventRow where
  date : Nat
  pos : Nat
  deriving DecidableEq

/-- Model of the call df.sort_values at line 63 with its default
algorithm kind, quicksort: the documented contract of that kind
guarantees an ascending-by-key permutation of the rows but not
stability, so the call is modelled as the relation admitting every
ascending-by-date permutation of the input. -/
def sort_values_spec (inp out : List EventRow) : Prop :=
  out.Perm inp ∧ List.Chain' (fun a b => a.date ≤ b.date) out

/-- The stable ascending-by-date permutation of the input: insertion
sort keeps rows with equal dates in their original relative order. -/
def stableSortByDate (l : List EventRow) : List EventRow :=
  l.insertionSort (fun a b => a.date ≤ b.date)

/-- The fixed allow-list of relevant categories of preprocess_data. -/
def RELEVANT_MSG_TYPES : List String :=
  ["ANNOUNCE_MEAL", "INTERVENTION_SNACK", "ANNOUNCE_EXERCISE", "DOSE_INSULIN",
    "DOSE_BASAL_INSULIN"]

/-- matchesAt n h holds when n is an initial segment of h. -/
def matchesAt : List Char → List Char → Bool
  | [], _ => true
  | _ :: _, [] => false
  | a :: as, b :: bs => a == b && matchesAt as bs

/-- substrAux n h holds when n occurs contiguously inside h. -/
def substrAux (n : List Char) : List Char → Bool
  | [] => matchesAt n []
  | b :: bs => matchesAt n (b :: bs) || substrAux n bs

/-- The python substring test of needle in hay, on strings. -/
def substrB (needle hay : String) : Bool := substrAux needle.toList hay.toList

/-- get_feature_names_out of the sklearn one-hot encoder on the msg_type
column: one indicator column named msg_type_c per observed category
value c. -/
def encodedColumns (cats : List String) : List String :=
  cats.map (fun c => "msg_type_" ++ c)

/-- Complement of the COLUMNS_TO_DROP comprehension at line 79: a column
is kept unless its name contains msg_type while containing none of the
relevant category names as a substring. -/
def keepColumn (col : String) : Bool :=
  !(substrB "msg_type" col && !(RELEVANT_MSG_TYPES.any (fun m => substrB m col)))

/-- Column schema transformation of preprocess_data lines 71-81: the
msg_type column is dropped, the indicator columns for the observed
category values are appended, and the columns matching COLUMNS_TO_DROP
are removed. -/
def preprocess_columns (cols : List String) (cats : List String) : List String :=
  ((cols.filter (fun c => c != "msg_type")) ++ encodedColumns cats).filter keepColumn

/-- Raw row of preprocess_data before timestamp parsing: the date field
as text, plus the original position of the row standing for its
payload. -/
structure RawRow where
  date : String
  payload : Nat

/-- Row of preprocess_data after its timestamp parse succeeded. -/
structure CleanRow where
  date : Nat
  payload : Nat
  deriving DecidableEq

/-- Row handling of preprocess_data lines 57-60: pd.to_datetime with
errors set to coerce turns an unparseable date into a missing value and
dropna then removes exactly those rows; parse stands for the
fixed-format timezone-aware parser. -/
def drop_invalid_dates (parse : String → Option Nat) (rows : List RawRow) : List CleanRow :=
  rows.filterMap (fun r => (parse r.date).map (fun d => CleanRow.mk d r.payload))

lemma mealPush_fst (s : Nat × List Nat) (b : Bool) :
    (mealPush s b).1 = s.1 + (if b then 1 else 0) := by
  cases b <;> simp [mealPush]

lemma mealPop_fst (s : Nat × List Nat) (b : Bool) : (mealPop s b).1 = s.1 := by
  unfold mealPop
  split <;> rfl

lemma mealStep_counter (s : Nat × List Nat) (ev : Bool × Bool) :
    (mealStep s ev).1.1 = s.1 + (if ev.1 then 1 else 0) := by
  simp [mealStep, mealPop_fst, mealPush_fst]

lemma mealStep_snd (s : Nat × List Nat) (ev : Bool × Bool) :
    (mealStep s ev).2 = mealLabel (mealPush s ev.1).2 := rfl

lemma mealStep_label_lt (s : Nat × List Nat) (ev : Bool × Bool) (h : MealInv s) :
    (mealStep s ev).2 < s.1 + (if ev.1 then 1 else 0) := by
  obtain ⟨h1, _, h3⟩ := h
  rcases ev with ⟨st, en⟩
  cases st with
  | true =>
      simp [mealStep_snd, mealPush, mealLabel]
  | false =>
      have hp : (mealStep s (false, en)).2 = s.2.headD 0 := by
        simp [mealStep_snd, mealPush, mealLabel]
      rw [hp]
      cases hstk : s.2 with
      | nil => simpa using h1
      | cons a t =>
          have := (h3 a (by simp [hstk])).2
          simpa [hstk] using this

lemma mealPush_inv (s : Nat × List Nat) (b : Bool) (h : MealInv s) :
    MealInv (mealPush s b) := by
  obtain ⟨h1, h2, h3⟩ := h
  cases b with
  | false => exact ⟨h1, h2, h3⟩
  | true =>
      refine ⟨?_, ?_, ?_⟩
      · simp [mealPush]
      · simp only [mealPush, if_pos]
        rw [List.chain'_cons']
        refine ⟨?_, h2⟩
        intro y hy
        have : y ∈ s.2 := by
          cases hstk : s.2 with
          | nil => simp [hstk] at hy
          | cons a t =>
              simp [hstk] at hy
              simp [hstk, hy]
        exact (h3 y this).2
      · intro x hx
        simp only [mealPush, if_pos] at hx ⊢
        rcases List.mem_cons.mp hx with hx | hx
        · subst hx
          exact ⟨by omega, by omega⟩
        · have := h3 x hx
          exact ⟨this.1, by omega⟩

lemma mealPop_inv (s : Nat × List Nat) (b : Bool) (h : MealInv s) :
    MealInv (mealPop s b) := by
  obtain ⟨h1, h2, h3⟩ := h
  unfold mealPop
  split
  · refine ⟨h1, h2.tail, ?_⟩
    intro x hx
    exact h3 x (List.mem_of_mem_tail hx)
  · exact ⟨h1, h2, h3⟩

lemma mealStep_inv (s : Nat × List Nat) (ev : Bool × Bool) (h : MealInv s) :
    MealInv (mealStep s ev).1 :=
  mealPop_inv _ _ (mealPush_inv s ev.1 h)

lemma mealState_inv (evs : List (Bool × Bool)) : ∀ s : Nat × List Nat,
    MealInv s → MealInv (mealState s evs) := by
  induction evs with
  | nil => intro s h; exact h
  | cons ev rest ih =>
      intro s h
      exact ih (mealStep s ev).1 (mealStep_inv s ev h)

lemma mealState_counter (evs : List (Bool × Bool)) : ∀ s : Nat × List Nat,
    (mealState s evs).1 = s.1 + evs.countP (fun e => e.1) := by
  induction evs with
  | nil => intro s; simp [mealState]
  | cons ev rest ih =>
      intro s
      have h0 : mealState s (ev :: rest) = mealState (mealStep s ev).1 rest := rfl
      rw [h0, ih, mealStep_counter, List.countP_cons]
      rcases ev with ⟨st, en⟩
      cases st <;> simp <;> omega

lemma mealLabelsAux_length (evs : List (Bool × Bool)) : ∀ s : Nat × List Nat,
    (mealLabelsAux s evs).length = evs.length := by
  induction evs with
  | nil => intro s; rfl
  | cons ev rest ih => intro s; simp [mealLabelsAux, ih]

lemma mealLabelsAux_getD (evs : List (Bool × Bool)) : ∀ (s : Nat × List Nat) (i : Nat),
    i < evs.length →
    (mealLabelsAux s evs).getD i 0
      = (mealStep (mealState s (evs.take i)) (evs.getD i (false, false))).2 := by
  induction evs with
  | nil => intro s i h; simp at h
  | cons ev rest ih =>
      intro s i h
      cases i with
      | zero => rfl
      | succ j =>
          have hj : j < rest.length := by simpa using h
          have h0 : (mealLabelsAux s (ev :: rest)).getD (j + 1) 0
              = (mealLabelsAux (mealStep s ev).1 rest).getD j 0 := rfl
          rw [h0, ih (mealStep s ev).1 j hj]
          rfl

lemma mealLabelsAux_getD_lt (evs : List (Bool × Bool)) : ∀ s : Nat × List Nat,
    MealInv s → ∀ i : Nat,
    (mealLabelsAux s evs).getD i 0 < s.1 + (evs.take (i + 1)).countP (fun e => e.1) := by
  induction evs with
  | nil =>
      intro s hs i
      simpa [mealLabelsAux] using hs.1
  | cons ev rest ih =>
      intro s hs i
      cases i with
      | zero =>
          have h := mealStep_label_lt s ev hs
          have h0 : (mealLabelsAux s (ev :: rest)).getD 0 0 = (mealStep s ev).2 := rfl
          rw [h0]
          rcases ev with ⟨st, en⟩
          cases st <;> simp_all [List.countP_cons]
      | succ j =>
          have h := ih (mealStep s ev).1 (mealStep_inv s ev hs) j
          rw [mealStep_counter] at h
          have h0 : (mealLabelsAux s (ev :: rest)).getD (j + 1) 0
              = (mealLabelsAux (mealStep s ev).1 rest).getD j 0 := rfl
          rw [h0]
          have h1 : (ev :: rest).take (j + 1 + 1) = ev :: rest.take (j + 1) := rfl
          rw [h1, List.countP_cons]
          rcases ev with ⟨st, en⟩
          cases st <;> simp_all <;> omega

lemma mealLabelsAux_getD_start (evs : List (Bool × Bool)) : ∀ (s : Nat × List Nat) (i : Nat),
    i < evs.length → (evs.getD i (false, false)).1 = true →
    (mealLabelsAux s evs).getD i 0 = s.1 + (evs.take i).countP (fun e => e.1) := by
  induction evs with
  | nil => intro s i h; simp at h
  | cons ev rest ih =>
      intro s i h hst
      cases i with
      | zero =>
          have hev : ev.1 = true := by simpa using hst
          have h0 : (mealLabelsAux s (ev :: rest)).getD 0 0 = (mealStep s ev).2 := rfl
          rw [h0, mealStep_snd, hev]
          simp [mealPush, mealLabel]
      | succ j =>
          have hj : j < rest.length := by simpa using h
          have hst' : (rest.getD j (false, false)).1 = true := by simpa using hst
          have h0 : (mealLabelsAux s (ev :: rest)).getD (j + 1) 0
              = (mealLabelsAux (mealStep s ev).1 rest).getD j 0 := rfl
          have h1 : (ev :: rest).take (j + 1) = ev :: rest.take j := rfl
          rw [h0, ih (mealStep s ev).1 j hj hst', mealStep_counter, h1, List.countP_cons]
          rcases ev with ⟨st, en⟩
          cases st <;> simp <;> omega

/-- C1: in create_meal_labels, the k-th meal-start row (in sequence
order) is assigned segment identifier k, that is 1 plus the number of
identifiers allocated before it; that identifier is pushed on the active
meal stack; and no row carries an identifier larger than the number of
start rows seen up to it, so identifier k never appears before its k-th
start row. -/
theorem create_meal_labels_monotone_ids (evs : List (Bool × Bool)) (i : Nat)
    (hi : i < evs.length) :
    ((evs.getD i (false, false)).1 = true →
        (create_meal_labels_core evs).getD i 0 = 1 + (evs.take i).countP (fun e => e.1)
          ∧ ((mealPush (mealStateAt evs i) true).2).headD 0
              = 1 + (evs.take i).countP (fun e => e.1))
      ∧ (create_meal_labels_core evs).getD i 0 ≤ (evs.take (i + 1)).countP (fun e => e.1) := by
  have hinv : MealInv (1, []) := ⟨le_refl 1, List.chain'_nil, by simp⟩
  constructor
  · intro hstart
    constructor
    · exact mealLabelsAux_getD_start evs (1, []) i hi hstart
    · have hc : (mealStateAt evs i).1 = 1 + (evs.take i).countP (fun e => e.1) := by
        have := mealState_counter (evs.take i) (1, [])
        simpa [mealStateAt] using this
      simp [mealPush, List.headD_cons, hc]
  · have hb := mealLabelsAux_getD_lt evs (1, []) hinv i
    have hb' : (create_meal_labels_core evs).getD i 0
        < 1 + (evs.take (i + 1)).countP (fun e => e.1) := hb
    omega

/-- Witness for C1 at the one-row input consisting of a single start
row. -/
theorem create_meal_labels_monotone_ids_witness :
    0 < exOneStart.length
      ∧ (((exOneStart.getD 0 (false, false)).1 = true →
            (create_meal_labels_core exOneStart).getD 0 0
                = 1 + (exOneStart.take 0).countP (fun e => e.1)
              ∧ ((mealPush (mealStateAt exOneStart 0) true).2).headD 0
                  = 1 + (exOneStart.take 0).countP (fun e => e.1))
          ∧ (create_meal_labels_core exOneStart).getD 0 0
              ≤ (exOneStart.take (0 + 1)).countP (fun e => e.1)) :=
  ⟨by decide, create_meal_labels_monotone_ids exOneStart 0 (by decide)⟩

/-- C2: in create_meal_labels the label of every row is the top of the active
meal stack after the possible push of the row (the most recently opened meal
still open), and the nested example start, start, end, end produces the
labels 1, 2, 2, 1. -/
theorem create_meal_labels_top_of_stack (evs : List (Bool × Bool)) (i : Nat)
    (hi : i < evs.length) :
    (create_meal_labels_core evs).getD i 0
        = ((mealPush (mealStateAt evs i) (evs.getD i (false, false)).1).2).headD 0
      ∧ create_meal_labels exFour = [1, 2, 2, 1] := by
  constructor
  · have h := mealLabelsAux_getD evs (1, []) i hi
    simpa [create_meal_labels_core, mealStateAt, mealStep_snd, mealLabel] using h
  · decide

/-- Witness for C2 at the one-row input consisting of a single start
row. -/
theorem create_meal_labels_top_of_stack_witness :
    0 < exOneStart.length
      ∧ ((create_meal_labels_core exOneStart).getD 0 0
            = ((mealPush (mealStateAt exOneStart 0)
                (exOneStart.getD 0 (false, false)).1).2).headD 0
          ∧ create_meal_labels exFour = [1, 2, 2, 1]) :=
  ⟨by decide, create_meal_labels_top_of_stack exOneStart 0 (by decide)⟩

/-- C3: a row whose start and end flags are both set labels itself with
the newly pushed identifier (the counter value at that row) and the
identifier is popped on the same row, so the scan continues with the
previous stack and an incremented counter; the one-row input with both
flags set produces the labels list 1 and leaves the stack empty. -/
theorem create_meal_labels_start_end_same_row (s : Nat × List Nat)
    (rest : List (Bool × Bool)) :
    mealLabelsAux s ((true, true) :: rest) = s.1 :: mealLabelsAux (s.1 + 1, s.2) rest
      ∧ create_meal_labels_core [(true, true)] = [1]
      ∧ (mealState (1, []) [((true : Bool), (true : Bool))]).2 = [] := by
  refine ⟨?_, by decide, by decide⟩
  have h1 : (mealStep s (true, true)).2 = s.1 := by
    simp [mealStep_snd, mealPush, mealLabel]
  have h2 : (mealStep s (true, true)).1 = (s.1 + 1, s.2) := by
    simp [mealStep, mealPush, mealPop]
  show (mealStep s (true, true)).2
      :: mealLabelsAux (mealStep s (true, true)).1 rest
    = s.1 :: mealLabelsAux (s.1 + 1, s.2) rest
  rw [h1, h2]

/-- C4: a meal-end row reached with an empty stack is a no-op: it labels
itself 0, leaves the state unchanged, and the whole label sequence from
that point on is the same as if the row carried no flags at all. -/
theorem create_meal_labels_end_empty_noop (c : Nat) (rest : List (Bool × Bool)) :
    mealLabelsAux (c, []) ((false, true) :: rest)
        = mealLabelsAux (c, []) ((false, false) :: rest)
      ∧ (mealStep (c, []) (false, true)).1 = (c, [])
      ∧ mealLabelsAux (c, []) ((false, true) :: rest)
          = 0 :: mealLabelsAux (c, []) rest := by
  have hstep : mealStep (c, []) (false, true) = ((c, []), 0) := by
    simp [mealStep, mealPush, mealPop, mealLabel]
  have hstep' : mealStep (c, []) (false, false) = ((c, []), 0) := by
    simp [mealStep, mealPush, mealPop, mealLabel]
  have e1 : mealLabelsAux (c, []) ((false, true) :: rest)
      = 0 :: mealLabelsAux (c, []) rest := by
    show (mealStep (c, []) (false, true)).2
        :: mealLabelsAux (mealStep (c, []) (false, true)).1 rest
      = 0 :: mealLabelsAux (c, []) rest
    rw [hstep]
  have e2 : mealLabelsAux (c, []) ((false, false) :: rest)
      = 0 :: mealLabelsAux (c, []) rest := by
    show (mealStep (c, []) (false, false)).2
        :: mealLabelsAux (mealStep (c, []) (false, false)).1 rest
      = 0 :: mealLabelsAux (c, []) rest
    rw [hstep']
  exact ⟨by rw [e1, e2], by rw [hstep], e1⟩

/-- C5: create_meal_labels is total, the empty input yields the empty
output, and the output always has exactly the length of the input. -/
theorem create_meal_labels_total_length (msgs : List String) :
    (create_meal_labels msgs).length = msgs.length ∧ create_meal_labels [] = [] := by
  refine ⟨?_, rfl⟩
  simp [create_meal_labels, create_meal_labels_core, mealLabelsAux_length]

/-- C9: at every step of the scan the active meal stack is strictly
increasing from bottom to top (head of the Lean list is the top) and
every stacked identifier is positive and below the current counter;
consequently every label is either 0 or a positive identifier bounded by
the number of start rows seen up to and including that row. -/
theorem create_meal_labels_stack_invariant (evs : List (Bool × Bool)) (i : Nat) :
    (List.Chain' (fun a b => a > b) (mealStateAt evs i).2
        ∧ ∀ x ∈ (mealStateAt evs i).2, 0 < x ∧ x < (mealStateAt evs i).1)
      ∧ ((create_meal_labels_core evs).getD i 0 = 0
          ∨ (0 < (create_meal_labels_core evs).getD i 0
              ∧ (create_meal_labels_core evs).getD i 0
                  ≤ (evs.take (i + 1)).countP (fun e => e.1))) := by
  have hinv : MealInv (1, []) := ⟨le_refl 1, List.chain'_nil, by simp⟩
  have hstate := mealState_inv (evs.take i) (1, []) hinv
  refine ⟨⟨hstate.2.1, hstate.2.2⟩, ?_⟩
  rcases Nat.eq_zero_or_pos ((create_meal_labels_core evs).getD i 0) with h | h
  · exact Or.inl h
  · refine Or.inr ⟨h, ?_⟩
    have hb := mealLabelsAux_getD_lt evs (1, []) hinv i
    have hb' : (create_meal_labels_core evs).getD i 0
        < 1 + (evs.take (i + 1)).countP (fun e => e.1) := hb
    omega

lemma stableSortByDate_spec (inp : List EventRow) :
    sort_values_spec inp (stableSortByDate inp) := by
  constructor
  · exact List.perm_insertionSort _ inp
  · haveI h1 : IsTotal EventRow (fun a b => a.date ≤ b.date) :=
      ⟨fun a b => Nat.le_total a.date b.date⟩
    haveI h2 : IsTrans EventRow (fun a b => a.date ≤ b.date) :=
      ⟨fun a b c hab hbc => Nat.le_trans hab hbc⟩
    have hs := List.sorted_insertionSort (fun a b => a.date ≤ b.date) inp
    exact List.Pairwise.chain' hs

/-- C6 counterexample: on an input of two rows with equal timestamps,
the non-stable permutation that swaps them is admitted by the contract
of the sort_values call, yet it differs from the stable
ascending-by-timestamp permutation of the input. -/
theorem sort_values_not_stable_cex :
    sort_values_spec [EventRow.mk 0 0, EventRow.mk 0 1] [EventRow.mk 0 1, EventRow.mk 0 0]
      ∧ ([EventRow.mk 0 1, EventRow.mk 0 0] : List EventRow)
          ≠ stableSortByDate [EventRow.mk 0 0, EventRow.mk 0 1] := by
  refine ⟨⟨List.Perm.swap _ _ _, ?_⟩, ?_⟩
  · exact List.chain'_pair.mpr (le_refl 0)
  · decide

/-- C6 amended: the sort step guarantees an ascending-by-timestamp
permutation of the input in which each group of equal-timestamp rows is
a permutation of the corresponding input group, and the stable
permutation is one admissible outcome, but equal-timestamp rows are not
guaranteed to keep their original relative order. -/
theorem sort_values_sorted_perm (inp out : List EventRow)
    (h : sort_values_spec inp out) :
    out.Perm inp ∧ List.Chain' (fun a b => a.date ≤ b.date) out
      ∧ (∀ d, (out.filter (fun r => r.date == d)).Perm
          (inp.filter (fun r => r.date == d)))
      ∧ sort_values_spec inp (stableSortByDate inp) :=
  ⟨h.1, h.2, fun d => h.1.filter (fun r => r.date == d), stableSortByDate_spec inp⟩

/-- Witness for the amended C6 at a concrete one-row input. -/
theorem sort_values_sorted_perm_witness :
    sort_values_spec [EventRow.mk 0 0] [EventRow.mk 0 0]
      ∧ (([EventRow.mk 0 0] : List EventRow).Perm [EventRow.mk 0 0]
          ∧ List.Chain' (fun a b => a.date ≤ b.date) ([EventRow.mk 0 0] : List EventRow)
          ∧ (∀ d, (([EventRow.mk 0 0] : List EventRow).filter (fun r => r.date == d)).Perm
              (([EventRow.mk 0 0] : List EventRow).filter (fun r => r.date == d)))
          ∧ sort_values_spec [EventRow.mk 0 0] (stableSortByDate [EventRow.mk 0 0])) :=
  ⟨⟨List.Perm.refl _, List.chain'_singleton _⟩,
    sort_values_sorted_perm [EventRow.mk 0 0] [EventRow.mk 0 0]
      ⟨List.Perm.refl _, List.chain'_singleton _⟩⟩

lemma matchesAt_self_append (n t : List Char) : matchesAt n (n ++ t) = true := by
  induction n with
  | nil => rfl
  | cons a as ih => simp [matchesAt, ih]

lemma substrAux_of_matchesAt (n h : List Char) (hm : matchesAt n h = true) :
    substrAux n h = true := by
  cases h with
  | nil => simpa [substrAux] using hm
  | cons b bs => simp [substrAux, hm]

lemma substrB_msg_type (c : String) : substrB "msg_type" ("msg_type_" ++ c) = true := by
  unfold substrB
  apply substrAux_of_matchesAt
  have h1 : ("msg_type_" ++ c).toList = "msg_type_".toList ++ c.toList := by
    simp [String.toList, String.data_append]
  have h2 : "msg_type_".toList = "msg_type".toList ++ ['_'] := by decide
  rw [h1, h2, List.append_assoc]
  exact matchesAt_self_append _ _

lemma keepColumn_eq_any (col : String) (hsub : substrB "msg_type" col = true) :
    keepColumn col = RELEVANT_MSG_TYPES.any (fun m => substrB m col) := by
  simp [keepColumn, hsub]

/-- C7 counterexample: the category ANNOUNCE_MEALX is not in the
allow-list of five relevant categories, yet its indicator column is kept
by the schema transformation, because the drop test only checks that
some relevant category name occurs as a substring of the column name. -/
theorem preprocess_columns_substring_cex :
    "msg_type_ANNOUNCE_MEALX"
        ∈ preprocess_columns ["date", "msg_type", "affects_fob"] ["ANNOUNCE_MEALX"]
      ∧ "ANNOUNCE_MEALX" ∉ RELEVANT_MSG_TYPES := by
  constructor
  · decide
  · decide

/-- C7 amended: after one-hot expansion the indicator column of an
observed category value is kept exactly when its full name contains one
of the five relevant category names as a substring (so exact allow-list
membership is not required), and the original msg_type column is removed
from the output schema. -/
theorem preprocess_columns_keep_iff (cols cats : List String) (c : String)
    (hc : c ∈ cats) :
    (("msg_type_" ++ c) ∈ preprocess_columns cols cats
        ↔ RELEVANT_MSG_TYPES.any (fun m => substrB m ("msg_type_" ++ c)) = true)
      ∧ "msg_type" ∉ preprocess_columns cols cats := by
  have hsub := substrB_msg_type c
  have hkeep := keepColumn_eq_any _ hsub
  constructor
  · constructor
    · intro hmem
      unfold preprocess_columns at hmem
      have hk := (List.mem_filter.mp hmem).2
      rwa [hkeep] at hk
    · intro hany
      unfold preprocess_columns
      apply List.mem_filter.mpr
      refine ⟨?_, ?_⟩
      · refine List.mem_append.mpr (Or.inr ?_)
        unfold encodedColumns
        exact List.mem_map.mpr ⟨c, hc, rfl⟩
      · rw [hkeep]
        exact hany
  · intro hmem
    unfold preprocess_columns at hmem
    have hk := (List.mem_filter.mp hmem).2
    have hfalse : keepColumn "msg_type" = false := by decide
    rw [hfalse] at hk
    exact Bool.false_ne_true hk

/-- Witness for the amended C7 at a concrete input whose only observed
category is ANNOUNCE_MEAL. -/
theorem preprocess_columns_keep_iff_witness :
    "ANNOUNCE_MEAL" ∈ ["ANNOUNCE_MEAL"]
      ∧ ((("msg_type_" ++ "ANNOUNCE_MEAL")
              ∈ preprocess_columns ["date", "msg_type"] ["ANNOUNCE_MEAL"]
            ↔ RELEVANT_MSG_TYPES.any
                (fun m => substrB m ("msg_type_" ++ "ANNOUNCE_MEAL")) = true)
          ∧ "msg_type" ∉ preprocess_columns ["date", "msg_type"] ["ANNOUNCE_MEAL"]) :=
  ⟨by decide,
    preprocess_columns_keep_iff ["date", "msg_type"] ["ANNOUNCE_MEAL"] "ANNOUNCE_MEAL"
      (by decide)⟩

lemma filterMap_length_isSome {α β : Type} (f : α → Option β) (l : List α) :
    (l.filterMap f).length = (l.filter (fun a => (f a).isSome)).length := by
  induction l with
  | nil => rfl
  | cons a t ih =>
      cases hfa : f a with
      | none => simp [List.filterMap_cons, List.filter_cons, hfa, ih]
      | some b => simp [List.filterMap_cons, List.filter_cons, hfa, ih]

/-- C8: the timestamp-parsing step of preprocess_data silently drops
exactly the rows whose date fails to parse: the output has one row per
parseable input row, every parseable row is retained, and every output
row comes from a parseable input row, with no error raised (the function
is total by construction). -/
theorem drop_invalid_dates_spec (parse : String → Option Nat) (rows : List RawRow) :
    (drop_invalid_dates parse rows).length
        = (rows.filter (fun r => (parse r.date).isSome)).length
      ∧ (∀ r ∈ rows, ∀ d, parse r.date = some d →
          CleanRow.mk d r.payload ∈ drop_invalid_dates parse rows)
      ∧ ∀ cr ∈ drop_invalid_dates parse rows,
          ∃ r ∈ rows, parse r.date = some cr.date ∧ r.payload = cr.payload := by
  refine ⟨?_, ?_, ?_⟩
  · unfold drop_invalid_dates
    rw [filterMap_length_isSome]
    congr 1
    apply List.filter_congr
    intro r _
    simp
  · intro r hr d hd
    unfold drop_invalid_dates
    apply List.mem_filterMap.mpr
    exact ⟨r, hr, by rw [hd]; rfl⟩
  · intro cr hcr
    unfold drop_invalid_dates at hcr
    obtain ⟨r, hr, hmk⟩ := List.mem_filterMap.mp hcr
    rcases hopt : parse r.date with _ | d
    · rw [hopt] at hmk
      simp at hmk
    · rw [hopt] at hmk
      simp only [Option.map_some'] at hmk
      cases hmk
      exact ⟨r, hr, by rw [hopt], rfl⟩

/-- C10: the meal-start and meal-end predicates of create_meal_labels
are equality tests of the single msg_type field against two distinct
strings, so no row can satisfy both. -/
theorem meal_predicates_exclusive (msg : String) :
    (mealStartP msg && mealEndP msg) = false := by
  by_cases h : msg = "ANNOUNCE_MEAL"
  · subst h
    decide
  · have hs : mealStartP msg = false := by
      simp only [mealStartP, beq_eq_false_iff_ne, ne_eq]
      exact h
    simp [hs]

end BG
